import Mathlib

/-!
Verification of the Adaptive-Zoning core against its specification.

The repository ships two notebooks that call the core functions
(`distance_matrix_from_points`, `doubly_constrained`,
`calibrate_doubly_constrained`, `AdaptiveZoneSystem`); the Python modules
implementing them are not part of the tree, so every definition below is
modelled from the specification text and says so in its doc comment.

Real-valued numerics (the balancer and calibrator) are embedded over `ℝ`,
idealizing floating point; the adaptive zone system is embedded over `ℚ`
so that it is fully executable.
-/

/-- Euclidean distance between two planar points. -/
noncomputable def euclideanDist (p q : ℝ × ℝ) : ℝ :=
  Real.sqrt ((p.1 - q.1) ^ 2 + (p.2 - q.2) ^ 2)

/-- Modelled from the spec: `distance_matrix_from_points` (its implementation
module is absent from the tree) returns the n-by-n matrix of pairwise
Euclidean distances of the input points. -/
noncomputable def distance_matrix_from_points {n : ℕ} (pts : Fin n → ℝ × ℝ) :
    Fin n → Fin n → ℝ :=
  fun i j => euclideanDist (pts i) (pts j)

/-- Result of the doubly-constrained balancer: trip matrix, realized mean trip
distance, and the two balancing-factor vectors. -/
structure DCResult (n : ℕ) where
  trips : Fin n → Fin n → ℝ
  mean_distance : ℝ
  a : Fin n → ℝ
  b : Fin n → ℝ

/-- Distance-decay kernel `exp (-(beta * d i j))`. -/
noncomputable def decayKernel {n : ℕ} (β : ℝ) (dm : Fin n → Fin n → ℝ) :
    Fin n → Fin n → ℝ :=
  fun i j => Real.exp (-(β * dm i j))

/-- Modelled from the spec: trip matrix assembled from the balancing factors.
The spec's data-model formula `trips i j = a i * b j * O i * D j * k i j` is
inconsistent with its own update formulas and marginal invariant (no trip
formula satisfies both marginals under the literal updates), so we use the
absorbed-factor form `trips i j = a i * b j * k i j` in which the factors
carry the totals; this is the unique reading under which the spec's update
numerators, its zero-weight edge case and its convergence guarantee all
hold. -/
noncomputable def tripsOf {n : ℕ} (k : Fin n → Fin n → ℝ) (a b : Fin n → ℝ) :
    Fin n → Fin n → ℝ :=
  fun i j => a i * b j * k i j

/-- Row sum of a trip matrix. -/
noncomputable def rowSum {n : ℕ} (t : Fin n → Fin n → ℝ) (i : Fin n) : ℝ :=
  ∑ j, t i j

/-- Column sum of a trip matrix. -/
noncomputable def colSum {n : ℕ} (t : Fin n → Fin n → ℝ) (j : Fin n) : ℝ :=
  ∑ i, t i j

/-- Relative residual of an achieved marginal `s` against its target `t`,
`|s - t| / t`; division by zero is `0` by the real-field convention, which
realizes the spec's "defined as 0, not division fault" edge case. -/
noncomputable def relErr (s t : ℝ) : ℝ := |s - t| / t

/-- Maximum relative residual of all row and column sums against the origin
and destination totals. -/
noncomputable def ipfResidual {n : ℕ} (O D : Fin n → ℝ) (k : Fin n → Fin n → ℝ)
    (ab : (Fin n → ℝ) × (Fin n → ℝ)) : ℝ :=
  max (Finset.univ.fold max 0 fun i => relErr (rowSum (tripsOf k ab.1 ab.2) i) (O i))
    (Finset.univ.fold max 0 fun j => relErr (colSum (tripsOf k ab.1 ab.2) j) (D j))

/-- Modelled from the spec: one iterative-proportional-fitting sweep.  First
every `a i` is updated to `O i / ∑ j, b j * k i j`, then every `b j` to
`D j / ∑ i, a i * k i j` using the freshly updated `a`.  Division by a zero
denominator yields `0` (the spec's zero-weight edge case). -/
noncomputable def ipfStep {n : ℕ} (O D : Fin n → ℝ) (k : Fin n → Fin n → ℝ)
    (ab : (Fin n → ℝ) × (Fin n → ℝ)) : (Fin n → ℝ) × (Fin n → ℝ) :=
  let a : Fin n → ℝ := fun i => O i / ∑ j, ab.2 j * k i j
  (a, fun j => D j / ∑ i, a i * k i j)

/-- Modelled from the spec: the IPF iteration.  Each round performs one sweep
and stops as soon as the maximum relative residual falls below the
tolerance; when the iteration budget is exhausted it signals a convergence
error carrying the last achieved residual. -/
noncomputable def ipfLoop {n : ℕ} (O D : Fin n → ℝ) (k : Fin n → Fin n → ℝ)
    (tol : ℝ) : ℕ → ((Fin n → ℝ) × (Fin n → ℝ)) →
    Except ℝ ((Fin n → ℝ) × (Fin n → ℝ))
  | 0, ab => Except.error (ipfResidual O D k ab)
  | fuel + 1, ab =>
    let ab1 := ipfStep O D k ab
    if ipfResidual O D k ab1 ≤ tol then Except.ok ab1
    else ipfLoop O D k tol fuel ab1

/-- Diagnostic trace of the residual achieved after each performed sweep. -/
noncomputable def ipfTrace {n : ℕ} (O D : Fin n → ℝ) (k : Fin n → Fin n → ℝ)
    (tol : ℝ) : ℕ → ((Fin n → ℝ) × (Fin n → ℝ)) → List ℝ
  | 0, _ => []
  | fuel + 1, ab =>
    let ab1 := ipfStep O D k ab
    if ipfResidual O D k ab1 ≤ tol then [ipfResidual O D k ab1]
    else ipfResidual O D k ab1 :: ipfTrace O D k tol fuel ab1

/-- Realized mean trip distance, trip-weighted. -/
noncomputable def meanTripDistance {n : ℕ} (dm t : Fin n → Fin n → ℝ) : ℝ :=
  (∑ i, ∑ j, t i j * dm i j) / (∑ i, ∑ j, t i j)

/-- Package converged balancing factors into the full balancer result. -/
noncomputable def mkDCResult {n : ℕ} (dm k : Fin n → Fin n → ℝ)
    (ab : (Fin n → ℝ) × (Fin n → ℝ)) : DCResult n :=
  ⟨tripsOf k ab.1 ab.2, meanTripDistance dm (tripsOf k ab.1 ab.2), ab.1, ab.2⟩

/-- Both balancing-factor vectors are initialized to all ones. -/
noncomputable def initFactors (n : ℕ) : (Fin n → ℝ) × (Fin n → ℝ) :=
  (fun _ => 1, fun _ => 1)

/-- Modelled from the spec: `doubly_constrained` (implementation module absent
from the tree).  Runs iterative proportional fitting from unit factors; on
convergence returns the trip matrix, realized mean trip distance and the
factors, otherwise a convergence error carrying the last achieved residual.
The second component is the diagnostic residual trace, emitted only when
`verbose` is set; per the spec it is a side channel and never feeds back
into the numeric results. -/
noncomputable def doubly_constrained {n : ℕ} (O D : Fin n → ℝ)
    (dm : Fin n → Fin n → ℝ) (β tol : ℝ) (maxIter : ℕ) (verbose : Bool) :
    Except ℝ (DCResult n) × List ℝ :=
  (Except.map (mkDCResult dm (decayKernel β dm))
      (ipfLoop O D (decayKernel β dm) tol maxIter (initFactors n)),
   if verbose then ipfTrace O D (decayKernel β dm) tol maxIter (initFactors n)
   else [])

/-- Failure modes of the beta calibrator. -/
inductive CalibrationError where
  | badBracket : ℝ → ℝ → CalibrationError
  | balancerFailure : ℝ → ℝ → CalibrationError
  | searchExhausted : CalibrationError

/-- Mean trip distance realized by the balancer at a given beta. -/
noncomputable def evalMeanDistance {n : ℕ} (O D : Fin n → ℝ)
    (dm : Fin n → Fin n → ℝ) (tol : ℝ) (maxIter : ℕ) (β : ℝ) : Except ℝ ℝ :=
  Except.map DCResult.mean_distance (doubly_constrained O D dm β tol maxIter false).1

/-- Modelled from the spec: bracketed bisection on beta.  Each round evaluates
the balancer at the bracket midpoint, returns it once the realized mean
distance is within `ctol` of the target, and otherwise keeps the half of the
bracket that still straddles the target (mean distance decreases in beta). -/
noncomputable def bisectBeta {n : ℕ} (O D : Fin n → ℝ) (dm : Fin n → Fin n → ℝ)
    (tol : ℝ) (maxIter : ℕ) (target ctol : ℝ) :
    ℕ → ℝ → ℝ → Except CalibrationError ℝ
  | 0, _, _ => Except.error CalibrationError.searchExhausted
  | fuel + 1, lo, hi =>
    match evalMeanDistance O D dm tol maxIter ((lo + hi) / 2) with
    | Except.error r =>
      Except.error (CalibrationError.balancerFailure ((lo + hi) / 2) r)
    | Except.ok md =>
      if |md - target| ≤ ctol then Except.ok ((lo + hi) / 2)
      else if target < md then
        bisectBeta O D dm tol maxIter target ctol fuel ((lo + hi) / 2) hi
      else bisectBeta O D dm tol maxIter target ctol fuel lo ((lo + hi) / 2)

/-- Modelled from the spec: `calibrate_doubly_constrained` (implementation
module absent from the tree).  Checks that the initial bracket straddles the
target mean distance, aborting with a calibration error when both endpoint
evaluations fall on the same strict side or when the balancer fails, and
otherwise bisects on beta. -/
noncomputable def calibrate_doubly_constrained {n : ℕ} (O D : Fin n → ℝ)
    (dm : Fin n → Fin n → ℝ) (target lo hi ctol tol : ℝ) (maxIter fuel : ℕ) :
    Except CalibrationError ℝ :=
  match evalMeanDistance O D dm tol maxIter lo,
      evalMeanDistance O D dm tol maxIter hi with
  | Except.ok mlo, Except.ok mhi =>
    if 0 < (mlo - target) * (mhi - target) then
      Except.error (CalibrationError.badBracket mlo mhi)
    else bisectBeta O D dm tol maxIter target ctol fuel lo hi
  | Except.error r, _ => Except.error (CalibrationError.balancerFailure lo r)
  | _, Except.error r => Except.error (CalibrationError.balancerFailure hi r)

/-- Two concrete planar points used by witnesses. -/
noncomputable def pts2 : Fin 2 → ℝ × ℝ := ![(0, 0), (3, 4)]

/-- Concrete one-point origin/destination totals used by witnesses. -/
noncomputable def oneO : Fin 1 → ℝ := fun _ => 1

/-- Concrete all-zero one-point totals used by witnesses. -/
noncomputable def zeroO : Fin 1 → ℝ := fun _ => 0

/-- The one-point distance matrix (a single zone at distance 0 from itself). -/
noncomputable def oneDM : Fin 1 → Fin 1 → ℝ := fun _ _ => 0

/-- The all-zero pair of balancing-factor vectors for a one-point system. -/
noncomputable def zeroAB : (Fin 1 → ℝ) × (Fin 1 → ℝ) :=
  (fun _ => 0, fun _ => 0)

/-- Unit origin/destination totals on a two-point system. -/
noncomputable def twoO : Fin 2 → ℝ := fun _ => 1

/-- Distance matrix of two points a distance d apart. -/
noncomputable def twoDM (d : ℝ) : Fin 2 → Fin 2 → ℝ :=
  fun i j => if i = j then 0 else d

/-- Balancing factors reached after one IPF sweep on the symmetric two-point
system: a = 1 / (1 + exp (-(beta * d))) for both origins, b = 1 for both
destinations. -/
noncomputable def twoAB (β d : ℝ) : (Fin 2 → ℝ) × (Fin 2 → ℝ) :=
  (fun _ => 1 / (1 + Real.exp (-(β * d))), fun _ => 1)

/-- Hierarchical aggregate zone: the original point indices it covers, its
aggregated origin/destination/weight, and its weight-mean centroid. -/
structure ZoneNode where
  members : List ℕ
  origin : ℚ
  dest : ℚ
  weight : ℚ
  centroid : ℚ × ℚ

/-- Default zone used only as an out-of-range fallback for indexed access. -/
def dzone : ZoneNode := ⟨[], 0, 0, 0, (0, 0)⟩

/-- Squared Euclidean distance between rational planar points. -/
def sqDist (p q : ℚ × ℚ) : ℚ := (p.1 - q.1) ^ 2 + (p.2 - q.2) ^ 2

/-- Euclidean distance between rational planar points, as a real number. -/
noncomputable def centroidDist (p q : ℚ × ℚ) : ℝ :=
  euclideanDist ((p.1 : ℝ), (p.2 : ℝ)) ((q.1 : ℝ), (q.2 : ℝ))

/-- Modelled from the spec: merging two zone nodes concatenates their member
sets, sums origins, destinations and weights, and places the centroid at the
weight-mean of the children's centroids (at the midpoint when the combined
weight is zero, a case the spec leaves open). -/
def mergeZones (A B : ZoneNode) : ZoneNode :=
  ⟨A.members ++ B.members, A.origin + B.origin, A.dest + B.dest,
    A.weight + B.weight,
    if A.weight + B.weight = 0 then
      ((A.centroid.1 + B.centroid.1) / 2, (A.centroid.2 + B.centroid.2) / 2)
    else
      ((A.weight * A.centroid.1 + B.weight * B.centroid.1) / (A.weight + B.weight),
       (A.weight * A.centroid.2 + B.weight * B.centroid.2) / (A.weight + B.weight))⟩

/-- Modelled from the spec: the aggregation cost driving merge selection.  The
spec fixes neither the exact decay formula nor the tie-break (its design
notes call them unspecified from usage), only that the cost combines the
decay-weighted distance with the aggregation weights under beta; we use
`beta * weight A * weight B * sqDist` and break cost ties by the earliest
pair in enumeration order (lexicographically least positions).  Every
property proved below is independent of this choice. -/
def mergeCost (β : ℚ) (A B : ZoneNode) : ℚ :=
  β * A.weight * B.weight * sqDist A.centroid B.centroid

/-- All position pairs (i, j) with i < j < m. -/
def pairList (m : ℕ) : List (ℕ × ℕ) :=
  (List.range m).flatMap fun i =>
    ((List.range m).filter fun j => i < j).map fun j => (i, j)

/-- Choose the admissible position pair of least merge cost (ties resolved by
keeping the earliest pair in `pairList` order). -/
def bestPair (β : ℚ) (zs : List ZoneNode) : ℕ × ℕ :=
  match pairList zs.length with
  | [] => (0, 0)
  | p :: ps =>
    ps.foldl (fun acc q =>
      if mergeCost β (zs.getD q.1 dzone) (zs.getD q.2 dzone) <
          mergeCost β (zs.getD acc.1 dzone) (zs.getD acc.2 dzone) then q
      else acc) p

/-- Remove the elements at positions i and j of a list, assuming i < j. -/
def removePair (zs : List ZoneNode) (i j : ℕ) : List ZoneNode :=
  (zs.eraseIdx j).eraseIdx i

/-- Modelled from the spec: one merge round.  The lowest-cost admissible pair
of active zones is replaced by its merge; lists with fewer than two zones
are left unchanged. -/
def mergeOnce (β : ℚ) (zs : List ZoneNode) : List ZoneNode :=
  if zs.length ≤ 1 then zs
  else
    removePair zs (bestPair β zs).1 (bestPair β zs).2 ++
      [mergeZones (zs.getD (bestPair β zs).1 dzone) (zs.getD (bestPair β zs).2 dzone)]

/-- Modelled from the spec: `AdaptiveZoneSystem` (implementation module absent
from the tree).  The constructor data is stored as leaf zones; the merge
hierarchy is replayed deterministically from them, which realizes the
spec's "state of the hierarchy after stopping at m active nodes". -/
structure AdaptiveZoneSystem where
  n : ℕ
  beta : ℚ
  nbhSize : ℕ
  leaves : List ZoneNode

/-- Leaf zone for input index i: singleton membership, the per-point
origin/destination/weight, and the point itself as centroid. -/
def leafZone (origins dests weights : List ℚ) (points : List (ℚ × ℚ))
    (i : ℕ) : ZoneNode :=
  ⟨[i], origins.getD i 0, dests.getD i 0, weights.getD i 0, points.getD i (0, 0)⟩

/-- Modelled from the spec: the `AdaptiveZoneSystem` constructor over parallel
per-point arrays. -/
def AdaptiveZoneSystem.ofData (origins dests weights : List ℚ)
    (points : List (ℚ × ℚ)) (β : ℚ) (k : ℕ) : AdaptiveZoneSystem :=
  ⟨points.length, β, k,
    (List.range points.length).map (leafZone origins dests weights points)⟩

/-- Modelled from the spec: `select_resolution m` clamps m to [1, n] and
returns the zones active once only that many aggregates remain, i.e. the
state after `n - clamp m` merge rounds from the n leaves; requests outside
[1, n] are clamped, never rejected. -/
def AdaptiveZoneSystem.select_resolution (sys : AdaptiveZoneSystem)
    (m : ℕ) : List ZoneNode :=
  (mergeOnce sys.beta)^[sys.n - min (max m 1) sys.n] sys.leaves

/-- Least original input index covered by a zone (0 for the empty zone). -/
def minIdx (z : ZoneNode) : ℕ :=
  match z.members with
  | [] => 0
  | x :: t => t.foldl min x

/-- Ordering used by neighbourhood queries: ascending squared centroid
distance from the reference point, ties broken by least original member
index.  Squared distances order points exactly as Euclidean distances do. -/
def nbhRel (c : ℚ × ℚ) (A B : ZoneNode) : Prop :=
  sqDist c A.centroid < sqDist c B.centroid ∨
    (sqDist c A.centroid = sqDist c B.centroid ∧ minIdx A ≤ minIdx B)

instance (c : ℚ × ℚ) : DecidableRel (nbhRel c) := fun A B => by
  unfold nbhRel
  infer_instance

instance (c : ℚ × ℚ) : IsTotal ZoneNode (nbhRel c) :=
  ⟨fun A B => by
    unfold nbhRel
    rcases lt_trichotomy (sqDist c A.centroid) (sqDist c B.centroid) with h | h | h
    · exact Or.inl (Or.inl h)
    · rcases le_total (minIdx A) (minIdx B) with h2 | h2
      · exact Or.inl (Or.inr ⟨h, h2⟩)
      · exact Or.inr (Or.inr ⟨h.symm, h2⟩)
    · exact Or.inr (Or.inl h)⟩

instance (c : ℚ × ℚ) : IsTrans ZoneNode (nbhRel c) :=
  ⟨fun A B C hab hbc => by
    unfold nbhRel at hab hbc ⊢
    rcases hab with h1 | ⟨e1, i1⟩
    · rcases hbc with h2 | ⟨e2, i2⟩
      · exact Or.inl (h1.trans h2)
      · exact Or.inl (lt_of_lt_of_eq h1 e2)
    · rcases hbc with h2 | ⟨e2, i2⟩
      · exact Or.inl (lt_of_eq_of_lt e1 h2)
      · exact Or.inr ⟨e1.trans e2, i1.trans i2⟩⟩

/-- Modelled from the spec: `neighbourhood` at a hierarchy level: all zones of
the level other than the one at position z, sorted ascending by centroid
distance with ties broken by original input index, truncated to the first
j requested. -/
def neighbourhood (level : List ZoneNode) (z : ℕ) (j : ℕ) : List ZoneNode :=
  (List.insertionSort (nbhRel (level.getD z dzone).centroid)
    (level.eraseIdx z)).take j

/-- A query against a constructed zone system. -/
inductive ZoneQuery where
  | selectRes : ℕ → ZoneQuery
  | nbh : ℕ → ℕ → ℕ → ZoneQuery

/-- Pure result of a single query. -/
def runQuery (sys : AdaptiveZoneSystem) : ZoneQuery → List ZoneNode
  | ZoneQuery.selectRes m => sys.select_resolution m
  | ZoneQuery.nbh m z j => neighbourhood (sys.select_resolution m) z j

/-- Modelled from the spec: a query threads the instance state; the hierarchy
is immutable after construction, so the state passes through unchanged. -/
def runQueryState (sys : AdaptiveZoneSystem) (q : ZoneQuery) :
    List ZoneNode × AdaptiveZoneSystem :=
  (runQuery sys q, sys)

/-- Run a sequence of queries, threading the instance state through. -/
def runQueries (sys : AdaptiveZoneSystem) :
    List ZoneQuery → List (List ZoneNode) × AdaptiveZoneSystem
  | [] => ([], sys)
  | q :: qs =>
    ((runQueryState sys q).1 :: (runQueries (runQueryState sys q).2 qs).1,
      (runQueries (runQueryState sys q).2 qs).2)

/-- Flattened member indices of a list of zones. -/
def allMembers (zs : List ZoneNode) : List ℕ := zs.flatMap ZoneNode.members

/-- Concrete three-point input data used by witnesses. -/
def exPoints : List (ℚ × ℚ) := [(0, 0), (1, 0), (5, 0)]

/-- Concrete unit per-point attributes used by witnesses. -/
def exOnes : List ℚ := [1, 1, 1]

/-- Concrete zone system used by witnesses. -/
def exSys : AdaptiveZoneSystem :=
  AdaptiveZoneSystem.ofData exOnes exOnes exOnes exPoints 1 2

/-- C6: for every input sequence of n ≥ 1 planar points, the distance matrix
is exactly symmetric, has exactly zero diagonal, and each entry is the
Euclidean distance between the corresponding points. -/
theorem distance_matrix_symm_zero_diag {n : ℕ} (pts : Fin n → ℝ × ℝ)
    (hn : 1 ≤ n) :
    (∀ i j, distance_matrix_from_points pts i j
      = distance_matrix_from_points pts j i) ∧
    (∀ i, distance_matrix_from_points pts i i = 0) ∧
    (∀ i j, distance_matrix_from_points pts i j
      = euclideanDist (pts i) (pts j)) := by
  refine ⟨fun i j => ?_, fun i => ?_, fun i j => rfl⟩
  · show Real.sqrt _ = Real.sqrt _
    congr 1
    ring
  · simp [distance_matrix_from_points, euclideanDist]

/-- Witness for C6: the symmetry and zero-diagonal conclusions at two concrete
points. -/
theorem distance_matrix_symm_zero_diag_witness :
    distance_matrix_from_points pts2 0 1 = distance_matrix_from_points pts2 1 0 ∧
    distance_matrix_from_points pts2 0 0 = 0 := by
  have h := distance_matrix_symm_zero_diag pts2 (by norm_num)
  exact ⟨h.1 0 1, h.2.1 0⟩

/-- An `Except.map` image is a success exactly when the source is, with the
mapped value. -/
theorem except_map_ok {ε α β : Type} (f : α → β) (e : Except ε α) (y : β)
    (h : Except.map f e = Except.ok y) : ∃ x, e = Except.ok x ∧ y = f x := by
  cases e with
  | error r => simp [Except.map] at h
  | ok x =>
    refine ⟨x, rfl, ?_⟩
    simpa [Except.map] using h.symm

/-- An `Except.map` image is a failure exactly when the source is. -/
theorem except_map_error {ε α β : Type} (f : α → β) (e : Except ε α) (r : ε) :
    Except.map f e = Except.error r ↔ e = Except.error r := by
  cases e <;> simp [Except.map]

/-- Any successful IPF outcome passed the tolerance check and is the image of
one final sweep. -/
theorem ipfLoop_ok {n : ℕ} (O D : Fin n → ℝ) (k : Fin n → Fin n → ℝ) (tol : ℝ) :
    ∀ (fuel : ℕ) (ab ab' : (Fin n → ℝ) × (Fin n → ℝ)),
      ipfLoop O D k tol fuel ab = Except.ok ab' →
      ipfResidual O D k ab' ≤ tol ∧ ∃ ab0, ab' = ipfStep O D k ab0
  | 0, ab, ab', h => by simp [ipfLoop] at h
  | fuel + 1, ab, ab', h => by
    simp only [ipfLoop] at h
    by_cases hres : ipfResidual O D k (ipfStep O D k ab) ≤ tol
    · rw [if_pos hres] at h
      cases h
      exact ⟨hres, ab, rfl⟩
    · rw [if_neg hres] at h
      exact ipfLoop_ok O D k tol fuel _ ab' h

/-- The residual bounds every single row relative error. -/
theorem relErr_row_le {n : ℕ} {O D : Fin n → ℝ} {k : Fin n → Fin n → ℝ}
    {ab : (Fin n → ℝ) × (Fin n → ℝ)} {tol : ℝ}
    (h : ipfResidual O D k ab ≤ tol) (i : Fin n) :
    relErr (rowSum (tripsOf k ab.1 ab.2) i) (O i) ≤ tol := by
  have h1 : (Finset.univ.fold max 0
      fun i => relErr (rowSum (tripsOf k ab.1 ab.2) i) (O i)) ≤ tol :=
    le_trans (le_max_left _ _) h
  exact ((Finset.fold_max_le tol).mp h1).2 i (Finset.mem_univ i)

/-- The residual bounds every single column relative error. -/
theorem relErr_col_le {n : ℕ} {O D : Fin n → ℝ} {k : Fin n → Fin n → ℝ}
    {ab : (Fin n → ℝ) × (Fin n → ℝ)} {tol : ℝ}
    (h : ipfResidual O D k ab ≤ tol) (j : Fin n) :
    relErr (colSum (tripsOf k ab.1 ab.2) j) (D j) ≤ tol := by
  have h1 : (Finset.univ.fold max 0
      fun j => relErr (colSum (tripsOf k ab.1 ab.2) j) (D j)) ≤ tol :=
    le_trans (le_max_right _ _) h
  exact ((Finset.fold_max_le tol).mp h1).2 j (Finset.mem_univ j)

/-- A bounded relative error yields an absolute error bound, given that a zero
target forces a zero achieved marginal. -/
theorem abs_le_of_relErr_le {s t tol : ℝ} (ht : 0 ≤ t) (hz : t = 0 → s = 0)
    (h : relErr s t ≤ tol) : |s - t| ≤ tol * t := by
  rcases eq_or_lt_of_le ht with h0 | h0
  · rw [hz h0.symm, ← h0]
    simp
  · exact (div_le_iff₀ h0).mp h

/-- After a sweep, a zero origin total forces a zero row balancing factor. -/
theorem ipfStep_a_zero {n : ℕ} (O D : Fin n → ℝ) (k : Fin n → Fin n → ℝ)
    (ab0 : (Fin n → ℝ) × (Fin n → ℝ)) (i : Fin n) (hO : O i = 0) :
    (ipfStep O D k ab0).1 i = 0 := by
  simp [ipfStep, hO]

/-- After a sweep, a zero destination total forces a zero column factor. -/
theorem ipfStep_b_zero {n : ℕ} (O D : Fin n → ℝ) (k : Fin n → Fin n → ℝ)
    (ab0 : (Fin n → ℝ) × (Fin n → ℝ)) (j : Fin n) (hD : D j = 0) :
    (ipfStep O D k ab0).2 j = 0 := by
  simp [ipfStep, hD]

/-- A zero row factor zeroes the whole trip-matrix row. -/
theorem rowSum_zero_of_a_zero {n : ℕ} (k : Fin n → Fin n → ℝ)
    (a b : Fin n → ℝ) (i : Fin n) (ha : a i = 0) :
    rowSum (tripsOf k a b) i = 0 := by
  simp [rowSum, tripsOf, ha]

/-- A zero column factor zeroes the whole trip-matrix column. -/
theorem colSum_zero_of_b_zero {n : ℕ} (k : Fin n → Fin n → ℝ)
    (a b : Fin n → ℝ) (j : Fin n) (hb : b j = 0) :
    colSum (tripsOf k a b) j = 0 := by
  simp [colSum, tripsOf, hb]

/-- C1: for nonnegative totals with equal sums within tolerance and a positive
decay parameter, whenever `doubly_constrained` converges (the spec's "safe
range" of beta being exactly the set on which the iterative proportional
fitting reaches the tolerance within the iteration budget), the returned
trip matrix reproduces every origin total as its row sum and every
destination total as its column sum to within the stated relative
tolerance. -/
theorem doubly_constrained_marginals {n : ℕ} (O D : Fin n → ℝ)
    (dm : Fin n → Fin n → ℝ) (β tol : ℝ) (maxIter : ℕ) (verbose : Bool)
    (res : DCResult n) (hO : ∀ i, 0 ≤ O i) (hD : ∀ j, 0 ≤ D j) (hβ : 0 < β)
    (hsum : |(∑ i, O i) - ∑ j, D j| ≤ tol)
    (hok : (doubly_constrained O D dm β tol maxIter verbose).1 = Except.ok res) :
    (∀ i, |rowSum res.trips i - O i| ≤ tol * O i) ∧
    (∀ j, |colSum res.trips j - D j| ≤ tol * D j) := by
  obtain ⟨ab, hloop, hmk⟩ := except_map_ok _ _ _ hok
  obtain ⟨htol, ab0, hstep⟩ := ipfLoop_ok O D _ tol maxIter _ ab hloop
  subst hmk
  constructor
  · intro i
    have h1 := relErr_row_le htol i
    simp only [mkDCResult]
    refine abs_le_of_relErr_le (hO i) (fun h0 => ?_) h1
    rw [hstep]
    exact rowSum_zero_of_a_zero _ _ _ i (ipfStep_a_zero _ _ _ _ i h0)
  · intro j
    have h1 := relErr_col_le htol j
    simp only [mkDCResult]
    refine abs_le_of_relErr_le (hD j) (fun h0 => ?_) h1
    rw [hstep]
    exact colSum_zero_of_b_zero _ _ _ j (ipfStep_b_zero _ _ _ _ j h0)

/-- The decay kernel of the one-point system is constantly 1. -/
theorem decayKernel_one (β : ℝ) : decayKernel β oneDM = fun _ _ => (1 : ℝ) := by
  funext i j
  simp [decayKernel, oneDM]

/-- One sweep on the one-point unit system is the identity on unit factors. -/
theorem ipfStep_one (β : ℝ) :
    ipfStep oneO oneO (decayKernel β oneDM) (initFactors 1) = initFactors 1 := by
  rw [decayKernel_one]
  unfold ipfStep initFactors oneO
  simp

/-- The residual of the one-point unit system at unit factors is zero. -/
theorem ipfResidual_one (β : ℝ) :
    ipfResidual oneO oneO (decayKernel β oneDM) (initFactors 1) = 0 := by
  rw [decayKernel_one]
  simp [ipfResidual, relErr, rowSum, colSum, tripsOf, initFactors, oneO,
    Finset.univ_unique, Finset.fold_singleton]

/-- One round of the IPF loop succeeds when the first sweep converges. -/
theorem ipfLoop_one {n : ℕ} (O D : Fin n → ℝ) (k : Fin n → Fin n → ℝ)
    (tol : ℝ) (ab : (Fin n → ℝ) × (Fin n → ℝ))
    (h : ipfResidual O D k (ipfStep O D k ab) ≤ tol) :
    ipfLoop O D k tol 1 ab = Except.ok (ipfStep O D k ab) := by
  have e : ipfLoop O D k tol 1 ab =
      (if ipfResidual O D k (ipfStep O D k ab) ≤ tol then
        Except.ok (ipfStep O D k ab)
      else ipfLoop O D k tol 0 (ipfStep O D k ab)) := rfl
  rw [e, if_pos h]

/-- The one-point unit system converges in a single iteration. -/
theorem dc_one (β tol : ℝ) (v : Bool) (htol : 0 ≤ tol) :
    (doubly_constrained oneO oneO oneDM β tol 1 v).1 =
      Except.ok (mkDCResult oneDM (decayKernel β oneDM) (initFactors 1)) := by
  have hres : ipfResidual oneO oneO (decayKernel β oneDM)
      (ipfStep oneO oneO (decayKernel β oneDM) (initFactors 1)) ≤ tol := by
    rw [ipfStep_one, ipfResidual_one]
    exact htol
  show Except.map (mkDCResult oneDM (decayKernel β oneDM))
      (ipfLoop oneO oneO (decayKernel β oneDM) tol 1 (initFactors 1)) = _
  rw [ipfLoop_one _ _ _ _ _ hres, ipfStep_one]
  rfl

/-- The one-point system realizes mean trip distance zero at unit factors. -/
theorem mean_one (β : ℝ) :
    (mkDCResult oneDM (decayKernel β oneDM) (initFactors 1)).mean_distance = 0 := by
  simp [mkDCResult, meanTripDistance, oneDM]

/-- Witness for C1: the one-point unit system converges and reproduces its
totals within tolerance. -/
theorem doubly_constrained_marginals_witness :
    |rowSum (mkDCResult oneDM (decayKernel 1 oneDM) (initFactors 1)).trips 0 - oneO 0|
      ≤ 1 * oneO 0 ∧
    |colSum (mkDCResult oneDM (decayKernel 1 oneDM) (initFactors 1)).trips 0 - oneO 0|
      ≤ 1 * oneO 0 := by
  have h := doubly_constrained_marginals oneO oneO oneDM 1 1 1 false
    (mkDCResult oneDM (decayKernel 1 oneDM) (initFactors 1))
    (fun i => by simp [oneO]) (fun j => by simp [oneO]) (by norm_num)
    (by simp) (dc_one 1 1 false (by norm_num))
  exact ⟨h.1 0, h.2 0⟩

/-- C7: with the division-by-zero-as-zero convention the balancer is a total
function; whenever it returns, a zero origin total forces a zero balancing
factor a_i and an all-zero row i of the trip matrix, and a zero destination
total forces a zero b_j and an all-zero column j. -/
theorem doubly_constrained_zero_totals {n : ℕ} (O D : Fin n → ℝ)
    (dm : Fin n → Fin n → ℝ) (β tol : ℝ) (maxIter : ℕ) (verbose : Bool)
    (res : DCResult n)
    (hok : (doubly_constrained O D dm β tol maxIter verbose).1 = Except.ok res) :
    (∀ i, O i = 0 → res.a i = 0 ∧ ∀ j, res.trips i j = 0) ∧
    (∀ j, D j = 0 → res.b j = 0 ∧ ∀ i, res.trips i j = 0) := by
  obtain ⟨ab, hloop, hmk⟩ := except_map_ok _ _ _ hok
  obtain ⟨htol, ab0, hstep⟩ := ipfLoop_ok O D _ tol maxIter _ ab hloop
  subst hmk
  subst hstep
  constructor
  · intro i h0
    have ha := ipfStep_a_zero O D (decayKernel β dm) ab0 i h0
    exact ⟨ha, fun j => by simp [mkDCResult, tripsOf, ha]⟩
  · intro j h0
    have hb := ipfStep_b_zero O D (decayKernel β dm) ab0 j h0
    exact ⟨hb, fun i => by simp [mkDCResult, tripsOf, hb]⟩

/-- One sweep on the all-zero one-point system yields all-zero factors. -/
theorem ipfStep_zero (β : ℝ) :
    ipfStep zeroO zeroO (decayKernel β oneDM) (initFactors 1) = zeroAB := by
  rw [decayKernel_one]
  unfold ipfStep initFactors zeroO zeroAB
  simp

/-- The residual of the all-zero one-point system at zero factors is zero. -/
theorem ipfResidual_zero (β : ℝ) :
    ipfResidual zeroO zeroO (decayKernel β oneDM) zeroAB = 0 := by
  rw [decayKernel_one]
  simp [ipfResidual, relErr, rowSum, colSum, tripsOf, zeroAB, zeroO,
    Finset.univ_unique, Finset.fold_singleton]

/-- The all-zero one-point system converges in a single iteration. -/
theorem dc_zero (β tol : ℝ) (v : Bool) (htol : 0 ≤ tol) :
    (doubly_constrained zeroO zeroO oneDM β tol 1 v).1 =
      Except.ok (mkDCResult oneDM (decayKernel β oneDM) zeroAB) := by
  have hres : ipfResidual zeroO zeroO (decayKernel β oneDM)
      (ipfStep zeroO zeroO (decayKernel β oneDM) (initFactors 1)) ≤ tol := by
    rw [ipfStep_zero, ipfResidual_zero]
    exact htol
  show Except.map (mkDCResult oneDM (decayKernel β oneDM))
      (ipfLoop zeroO zeroO (decayKernel β oneDM) tol 1 (initFactors 1)) = _
  rw [ipfLoop_one _ _ _ _ _ hres, ipfStep_zero]
  rfl

/-- Witness for C7: on a system with zero totals the balancer returns a zero
balancing factor and a zero trip-matrix row. -/
theorem doubly_constrained_zero_totals_witness :
    (mkDCResult oneDM (decayKernel 1 oneDM) zeroAB).a 0 = 0 ∧
    (mkDCResult oneDM (decayKernel 1 oneDM) zeroAB).trips 0 0 = 0 := by
  have h := doubly_constrained_zero_totals zeroO zeroO oneDM 1 1 1 false
    (mkDCResult oneDM (decayKernel 1 oneDM) zeroAB) (dc_zero 1 1 false (by norm_num))
  exact ⟨(h.1 0 rfl).1, (h.1 0 rfl).2 0⟩

/-- C9: the verbose flag only selects the diagnostic trace; the numeric
outcome (trip matrix, mean distance and factors, or the convergence error)
is identical for any two settings of the flag. -/
theorem doubly_constrained_verbose_invariant {n : ℕ} (O D : Fin n → ℝ)
    (dm : Fin n → Fin n → ℝ) (β tol : ℝ) (maxIter : ℕ) (v1 v2 : Bool) :
    (doubly_constrained O D dm β tol maxIter v1).1 =
      (doubly_constrained O D dm β tol maxIter v2).1 := rfl

/-- The IPF loop fails exactly when every performed sweep leaves the residual
above tolerance, and it then reports the residual of the last sweep. -/
theorem ipfLoop_error_iff {n : ℕ} (O D : Fin n → ℝ) (k : Fin n → Fin n → ℝ)
    (tol : ℝ) :
    ∀ (fuel : ℕ) (ab : (Fin n → ℝ) × (Fin n → ℝ)) (r : ℝ),
      ipfLoop O D k tol fuel ab = Except.error r ↔
        ((∀ m, 1 ≤ m → m ≤ fuel →
            tol < ipfResidual O D k ((ipfStep O D k)^[m] ab)) ∧
          r = ipfResidual O D k ((ipfStep O D k)^[fuel] ab))
  | 0, ab, r => by
    simp only [ipfLoop, Function.iterate_zero_apply, Except.error.injEq]
    constructor
    · intro h
      exact ⟨fun m h1 h2 => by omega, h.symm⟩
    · intro h
      exact h.2.symm
  | fuel + 1, ab, r => by
    simp only [ipfLoop]
    by_cases hres : ipfResidual O D k (ipfStep O D k ab) ≤ tol
    · rw [if_pos hres]
      constructor
      · intro h
        exact absurd h (by simp)
      · intro h
        have h1 := h.1 1 le_rfl (by omega)
        rw [Function.iterate_succ_apply, Function.iterate_zero_apply] at h1
        exact absurd hres (not_le.mpr h1)
    · rw [if_neg hres]
      rw [ipfLoop_error_iff O D k tol fuel (ipfStep O D k ab) r]
      constructor
      · rintro ⟨h1, h2⟩
        refine ⟨fun m hm1 hm2 => ?_, ?_⟩
        · obtain ⟨m', rfl⟩ : ∃ m', m = m' + 1 := ⟨m - 1, by omega⟩
          rw [Function.iterate_succ_apply]
          rcases Nat.eq_zero_or_pos m' with rfl | hpos
          · rw [Function.iterate_zero_apply]
            exact not_le.mp hres
          · exact h1 m' hpos (by omega)
        · rw [Function.iterate_succ_apply]
          exact h2
      · rintro ⟨h1, h2⟩
        refine ⟨fun m' hm1 hm2 => ?_, ?_⟩
        · have := h1 (m' + 1) (by omega) (by omega)
          rwa [Function.iterate_succ_apply] at this
        · rw [Function.iterate_succ_apply] at h2
          exact h2

/-- C8: `doubly_constrained` signals a convergence error exactly when every
sweep within the iteration budget leaves the maximum relative residual
above the tolerance, and the error carries the residual achieved by the
last sweep. -/
theorem doubly_constrained_convergence_error_iff {n : ℕ} (O D : Fin n → ℝ)
    (dm : Fin n → Fin n → ℝ) (β tol : ℝ) (maxIter : ℕ) (verbose : Bool)
    (r : ℝ) :
    (doubly_constrained O D dm β tol maxIter verbose).1 = Except.error r ↔
      ((∀ m, 1 ≤ m → m ≤ maxIter →
          tol < ipfResidual O D (decayKernel β dm)
            ((ipfStep O D (decayKernel β dm))^[m] (initFactors n))) ∧
        r = ipfResidual O D (decayKernel β dm)
          ((ipfStep O D (decayKernel β dm))^[maxIter] (initFactors n))) := by
  have e : (doubly_constrained O D dm β tol maxIter verbose).1 =
      Except.map (mkDCResult dm (decayKernel β dm))
        (ipfLoop O D (decayKernel β dm) tol maxIter (initFactors n)) := rfl
  rw [e, except_map_error, ipfLoop_error_iff]

/-- A successful bisection result was checked against the target at the
returned midpoint. -/
theorem bisectBeta_ok {n : ℕ} (O D : Fin n → ℝ) (dm : Fin n → Fin n → ℝ)
    (tol : ℝ) (maxIter : ℕ) (target ctol : ℝ) :
    ∀ (fuel : ℕ) (lo hi β : ℝ),
      bisectBeta O D dm tol maxIter target ctol fuel lo hi = Except.ok β →
      ∃ md, evalMeanDistance O D dm tol maxIter β = Except.ok md ∧
        |md - target| ≤ ctol
  | 0, lo, hi, β, h => by simp [bisectBeta] at h
  | fuel + 1, lo, hi, β, h => by
    rw [bisectBeta] at h
    split at h
    · simp at h
    · rename_i md heq
      split at h
      · rename_i hclose
        cases h
        exact ⟨md, heq, hclose⟩
      · split at h
        · exact bisectBeta_ok O D dm tol maxIter target ctol fuel _ _ β h
        · exact bisectBeta_ok O D dm tol maxIter target ctol fuel _ _ β h

/-- C2: whenever calibration succeeds, re-running the balancer at the returned
beta realizes a mean trip distance within the calibration tolerance of the
target. -/
theorem calibrate_doubly_constrained_hits_target {n : ℕ} (O D : Fin n → ℝ)
    (dm : Fin n → Fin n → ℝ) (target lo hi ctol tol : ℝ) (maxIter fuel : ℕ)
    (β : ℝ)
    (hok : calibrate_doubly_constrained O D dm target lo hi ctol tol maxIter fuel
      = Except.ok β) :
    ∃ md, evalMeanDistance O D dm tol maxIter β = Except.ok md ∧
      |md - target| ≤ ctol := by
  unfold calibrate_doubly_constrained at hok
  split at hok
  · split at hok
    · simp at hok
    · exact bisectBeta_ok O D dm tol maxIter target ctol fuel lo hi β hok
  · simp at hok
  · simp at hok

/-- The one-point unit system realizes mean distance zero at every beta. -/
theorem evalMean_one (β : ℝ) :
    evalMeanDistance oneO oneO oneDM 1 1 β = Except.ok 0 := by
  unfold evalMeanDistance
  rw [dc_one β 1 false (by norm_num)]
  simp [Except.map, mean_one]

/-- Calibrating the one-point system to target 0 on the bracket [1, 2]
succeeds at the first midpoint. -/
theorem calibrate_one :
    calibrate_doubly_constrained oneO oneO oneDM 0 1 2 1 1 1 1
      = Except.ok ((1 + 2) / 2) := by
  unfold calibrate_doubly_constrained
  rw [evalMean_one, evalMean_one]
  dsimp only
  rw [if_neg (by norm_num)]
  have e : bisectBeta oneO oneO oneDM 1 1 0 1 1 1 2 =
      (match evalMeanDistance oneO oneO oneDM 1 1 ((1 + 2) / 2) with
      | Except.error r =>
        Except.error (CalibrationError.balancerFailure ((1 + 2) / 2) r)
      | Except.ok md =>
        if |md - 0| ≤ 1 then Except.ok ((1 + 2) / 2)
        else if (0:ℝ) < md then bisectBeta oneO oneO oneDM 1 1 0 1 0 ((1 + 2) / 2) 2
        else bisectBeta oneO oneO oneDM 1 1 0 1 0 1 ((1 + 2) / 2)) := rfl
  rw [e, evalMean_one]
  dsimp only
  rw [if_pos (by norm_num)]

/-- Witness for C2: on the one-point system, calibration to target 0 succeeds
and re-running the balancer at the returned beta hits the target exactly. -/
theorem calibrate_doubly_constrained_hits_target_witness :
    ∃ md, evalMeanDistance oneO oneO oneDM 1 1 ((1 + 2) / 2) = Except.ok md ∧
      |md - 0| ≤ 1 :=
  calibrate_doubly_constrained_hits_target oneO oneO oneDM 0 1 2 1 1 1 1
    ((1 + 2) / 2) calibrate_one

/-- The first component of a sweep, spelled out. -/
theorem ipfStep_fst {n : ℕ} (O D : Fin n → ℝ) (k : Fin n → Fin n → ℝ)
    (ab : (Fin n → ℝ) × (Fin n → ℝ)) :
    (ipfStep O D k ab).1 = fun i => O i / ∑ j, ab.2 j * k i j := rfl

/-- The sum of initial factors against the two-point kernel. -/
theorem sum_b_kernel_two (β d : ℝ) (i : Fin 2) :
    ∑ j, (initFactors 2).2 j * decayKernel β (twoDM d) i j
      = 1 + Real.exp (-(β * d)) := by
  fin_cases i <;>
    simp [initFactors, decayKernel, twoDM, Fin.sum_univ_two] <;> ring

/-- The a-factors after one sweep on the two-point system. -/
theorem ipfStep_two_fst (β d : ℝ) :
    (ipfStep twoO twoO (decayKernel β (twoDM d)) (initFactors 2)).1
      = (twoAB β d).1 := by
  funext i
  rw [ipfStep_fst]
  show twoO i / ∑ j, (initFactors 2).2 j * decayKernel β (twoDM d) i j = _
  rw [sum_b_kernel_two]
  simp [twoO, twoAB]

/-- The a-factors of the two-point system rebalance the kernel sum to one. -/
theorem sum_a_kernel_two (β d : ℝ) (j : Fin 2) :
    ∑ i, (twoAB β d).1 i * decayKernel β (twoDM d) i j = 1 := by
  have hne : (1 + Real.exp (-(β * d))) ≠ 0 := by positivity
  fin_cases j <;>
    simp [twoAB, decayKernel, twoDM, Fin.sum_univ_two] <;>
    field_simp <;> ring

/-- The b-factors after one sweep on the two-point system are all one. -/
theorem ipfStep_two_snd (β d : ℝ) :
    (ipfStep twoO twoO (decayKernel β (twoDM d)) (initFactors 2)).2
      = (twoAB β d).2 := by
  funext j
  have e1 : (ipfStep twoO twoO (decayKernel β (twoDM d)) (initFactors 2)).2 j
      = twoO j / ∑ i,
          ((ipfStep twoO twoO (decayKernel β (twoDM d)) (initFactors 2)).1 i)
          * decayKernel β (twoDM d) i j := rfl
  rw [e1, ipfStep_two_fst, sum_a_kernel_two]
  simp [twoO, twoAB]

/-- One sweep on the two-point system reaches the closed-form factors. -/
theorem ipfStep_two (β d : ℝ) :
    ipfStep twoO twoO (decayKernel β (twoDM d)) (initFactors 2) = twoAB β d :=
  Prod.ext (ipfStep_two_fst β d) (ipfStep_two_snd β d)

/-- A fold of an everywhere-zero map with max over zero is zero. -/
theorem fold_max_zero {α : Type} (s : Finset α) (f : α → ℝ)
    (h : ∀ x, f x = 0) : s.fold max (0:ℝ) f = 0 :=
  le_antisymm ((Finset.fold_max_le 0).mpr ⟨le_rfl, fun x _ => le_of_eq (h x)⟩)
    ((Finset.le_fold_max 0).mpr (Or.inl le_rfl))

/-- Every row sum of the balanced two-point trip matrix is one. -/
theorem rowSum_two (β d : ℝ) (i : Fin 2) :
    rowSum (tripsOf (decayKernel β (twoDM d)) (twoAB β d).1 (twoAB β d).2) i
      = 1 := by
  have hne : (1 + Real.exp (-(β * d))) ≠ 0 := by positivity
  fin_cases i <;>
    simp [rowSum, tripsOf, twoAB, decayKernel, twoDM, Fin.sum_univ_two] <;>
    field_simp <;> ring

/-- Every column sum of the balanced two-point trip matrix is one. -/
theorem colSum_two (β d : ℝ) (j : Fin 2) :
    colSum (tripsOf (decayKernel β (twoDM d)) (twoAB β d).1 (twoAB β d).2) j
      = 1 := by
  have h := sum_a_kernel_two β d j
  simpa [colSum, tripsOf, twoAB, mul_one] using h

/-- The residual of the balanced two-point system is zero. -/
theorem ipfResidual_two (β d : ℝ) :
    ipfResidual twoO twoO (decayKernel β (twoDM d)) (twoAB β d) = 0 := by
  unfold ipfResidual
  rw [fold_max_zero _ _ (fun i => by rw [rowSum_two]; simp [relErr, twoO]),
    fold_max_zero _ _ (fun j => by rw [colSum_two]; simp [relErr, twoO])]
  simp

/-- The two-point unit system converges in a single iteration. -/
theorem dc_two (β d tol : ℝ) (v : Bool) (htol : 0 ≤ tol) :
    (doubly_constrained twoO twoO (twoDM d) β tol 1 v).1 =
      Except.ok (mkDCResult (twoDM d) (decayKernel β (twoDM d)) (twoAB β d)) := by
  have hres : ipfResidual twoO twoO (decayKernel β (twoDM d))
      (ipfStep twoO twoO (decayKernel β (twoDM d)) (initFactors 2)) ≤ tol := by
    rw [ipfStep_two, ipfResidual_two]
    exact htol
  show Except.map (mkDCResult (twoDM d) (decayKernel β (twoDM d)))
      (ipfLoop twoO twoO (decayKernel β (twoDM d)) tol 1 (initFactors 2)) = _
  rw [ipfLoop_one _ _ _ _ _ hres, ipfStep_two]
  rfl

/-- Closed form of the realized mean trip distance on the two-point system. -/
theorem mean_two (β d : ℝ) :
    (mkDCResult (twoDM d) (decayKernel β (twoDM d)) (twoAB β d)).mean_distance
      = d * Real.exp (-(β * d)) / (1 + Real.exp (-(β * d))) := by
  have hne : (1 + Real.exp (-(β * d))) ≠ 0 := by positivity
  show meanTripDistance (twoDM d)
      (tripsOf (decayKernel β (twoDM d)) (twoAB β d).1 (twoAB β d).2) = _
  unfold meanTripDistance tripsOf twoAB decayKernel twoDM
  simp [Fin.sum_univ_two]
  field_simp
  ring

/-- The closed-form two-point mean distance strictly decreases in beta. -/
theorem mean_two_lt (d : ℝ) (hd : 0 < d) (β1 β2 : ℝ) (h : β1 < β2) :
    d * Real.exp (-(β2 * d)) / (1 + Real.exp (-(β2 * d)))
      < d * Real.exp (-(β1 * d)) / (1 + Real.exp (-(β1 * d))) := by
  have hk2 : (0:ℝ) < Real.exp (-(β2 * d)) := Real.exp_pos _
  have hk1 : (0:ℝ) < Real.exp (-(β1 * d)) := Real.exp_pos _
  have hlt : Real.exp (-(β2 * d)) < Real.exp (-(β1 * d)) := by
    apply Real.exp_lt_exp.mpr
    nlinarith
  have h1 : (0:ℝ) < 1 + Real.exp (-(β2 * d)) := by linarith
  have h2 : (0:ℝ) < 1 + Real.exp (-(β1 * d)) := by linarith
  rw [div_lt_div_iff h1 h2]
  nlinarith [mul_lt_mul_of_pos_left hlt hd]

/-- C3 counterexample: on the one-point system both beta = 1 and beta = 2
converge, yet the realized mean trip distance is 0 at both, so the mean
distance is not strictly decreasing in beta for every fixed O, D and
distance matrix. -/
theorem mean_distance_not_strictly_decreasing :
    (doubly_constrained oneO oneO oneDM 1 1 1 false).1
      = Except.ok (mkDCResult oneDM (decayKernel 1 oneDM) (initFactors 1)) ∧
    (doubly_constrained oneO oneO oneDM 2 1 1 false).1
      = Except.ok (mkDCResult oneDM (decayKernel 2 oneDM) (initFactors 1)) ∧
    ¬((mkDCResult oneDM (decayKernel 2 oneDM) (initFactors 1)).mean_distance
      < (mkDCResult oneDM (decayKernel 1 oneDM) (initFactors 1)).mean_distance) := by
  refine ⟨dc_one 1 1 false (by norm_num), dc_one 2 1 false (by norm_num), ?_⟩
  rw [mean_one, mean_one]
  exact lt_irrefl 0

/-- C3 amended: strict decrease fails exactly in the degenerate situation.  On
an identically-zero distance matrix the whole balancer output is
independent of beta (the decay kernel is constantly one), so the mean
distance is constant there; on the spec's non-degenerate two-point scenario
(unit totals, inter-point distance d > 0) the realized mean trip distance
is strictly decreasing in beta across converging runs. -/
theorem mean_distance_beta_monotone_amended :
    (∀ (n : ℕ) (O D : Fin n → ℝ) (dm : Fin n → Fin n → ℝ),
      (∀ i j, dm i j = 0) → ∀ (β1 β2 tol : ℝ) (maxIter : ℕ) (v : Bool),
        doubly_constrained O D dm β1 tol maxIter v
          = doubly_constrained O D dm β2 tol maxIter v) ∧
    (∀ (d : ℝ), 0 < d → ∀ (β1 β2 tol : ℝ), 0 < β1 → β1 < β2 → 0 ≤ tol →
      ∃ r1 r2 : DCResult 2,
        (doubly_constrained twoO twoO (twoDM d) β1 tol 1 false).1
          = Except.ok r1 ∧
        (doubly_constrained twoO twoO (twoDM d) β2 tol 1 false).1
          = Except.ok r2 ∧
        r2.mean_distance < r1.mean_distance) := by
  constructor
  · intro n O D dm h0 β1 β2 tol maxIter v
    have hk : decayKernel β1 dm = decayKernel β2 dm := by
      funext i j
      simp [decayKernel, h0]
    unfold doubly_constrained
    rw [hk]
  · intro d hd β1 β2 tol hb1 h ht
    refine ⟨mkDCResult (twoDM d) (decayKernel β1 (twoDM d)) (twoAB β1 d),
      mkDCResult (twoDM d) (decayKernel β2 (twoDM d)) (twoAB β2 d),
      dc_two β1 d tol false ht, dc_two β2 d tol false ht, ?_⟩
    rw [mean_two, mean_two]
    exact mean_two_lt d hd β1 β2 h

/-- Witness for the amended C3: both conjuncts at concrete inputs. -/
theorem mean_distance_beta_monotone_amended_witness :
    (doubly_constrained oneO oneO oneDM 1 1 1 false
      = doubly_constrained oneO oneO oneDM 2 1 1 false) ∧
    (∃ r1 r2 : DCResult 2,
      (doubly_constrained twoO twoO (twoDM 1) 1 1 1 false).1 = Except.ok r1 ∧
      (doubly_constrained twoO twoO (twoDM 1) 2 1 1 false).1 = Except.ok r2 ∧
      r2.mean_distance < r1.mean_distance) :=
  ⟨mean_distance_beta_monotone_amended.1 1 oneO oneO oneDM (fun i j => rfl)
      1 2 1 1 false,
    mean_distance_beta_monotone_amended.2 1 (by norm_num) 1 2 1 (by norm_num)
      (by norm_num) (by norm_num)⟩

/-- A list is a permutation of the element at any valid position consed onto
its erasure at that position. -/
theorem perm_getD_eraseIdx {α : Type} (d : α) :
    ∀ (zs : List α) (kk : ℕ), kk < zs.length →
      zs.Perm (zs.getD kk d :: zs.eraseIdx kk)
  | [], kk, h => by simp at h
  | x :: t, 0, _ => by simp
  | x :: t, kk + 1, h => by
    have ih := perm_getD_eraseIdx d t kk (by simpa using h)
    rw [List.getD_cons_succ, List.eraseIdx_cons_succ]
    exact (ih.cons x).trans (List.Perm.swap _ _ _)

/-- Erasing at a later position leaves earlier indexed reads unchanged. -/
theorem getD_eraseIdx_lt {α : Type} (d : α) :
    ∀ (zs : List α) (i j : ℕ), i < j →
      (zs.eraseIdx j).getD i d = zs.getD i d
  | [], i, j, _ => by simp
  | x :: t, i, 0, h => absurd h (Nat.not_lt_zero i)
  | x :: t, 0, j + 1, _ => by
    rw [List.eraseIdx_cons_succ, List.getD_cons_zero, List.getD_cons_zero]
  | x :: t, i + 1, j + 1, h => by
    rw [List.eraseIdx_cons_succ, List.getD_cons_succ, List.getD_cons_succ]
    exact getD_eraseIdx_lt d t i j (by omega)

/-- Extracting two positions i < j: the list is a permutation of the two reads
consed onto the double erasure. -/
theorem perm_two_extract (zs : List ZoneNode) (i j : ℕ) (hij : i < j)
    (hj : j < zs.length) :
    zs.Perm (zs.getD i dzone :: zs.getD j dzone :: removePair zs i j) := by
  have h1 := perm_getD_eraseIdx dzone zs j hj
  have hi : i < (zs.eraseIdx j).length := by
    rw [List.length_eraseIdx, if_pos hj]
    omega
  have h2 := perm_getD_eraseIdx dzone (zs.eraseIdx j) i hi
  rw [getD_eraseIdx_lt dzone zs i j hij] at h2
  exact (h1.trans (h2.cons _)).trans (List.Perm.swap _ _ _)

/-- Flattened membership is invariant under permutation of the zones. -/
theorem allMembers_perm : ∀ {zs ws : List ZoneNode}, zs.Perm ws →
    (allMembers zs).Perm (allMembers ws) := by
  intro zs ws h
  induction h with
  | nil => exact List.Perm.refl _
  | cons x h ih => exact List.Perm.append_left x.members ih
  | swap x y l =>
    simp only [allMembers, List.flatMap_cons, ← List.append_assoc]
    exact List.Perm.append_right _ List.perm_append_comm
  | trans h1 h2 ih1 ih2 => exact ih1.trans ih2

/-- Every enumerated pair is admissible: i < j < m. -/
theorem pairList_mem {m : ℕ} {p : ℕ × ℕ} (h : p ∈ pairList m) :
    p.1 < p.2 ∧ p.2 < m := by
  rw [pairList, List.mem_flatMap] at h
  obtain ⟨i, hi, hp⟩ := h
  rw [List.mem_map] at hp
  obtain ⟨j, hj, rfl⟩ := hp
  rw [List.mem_filter] at hj
  exact ⟨by simpa using hj.2, List.mem_range.mp hj.1⟩

/-- With at least two zones there is an admissible pair. -/
theorem pairList_ne_nil {m : ℕ} (h : 2 ≤ m) : pairList m ≠ [] := by
  have hmem : ((0 : ℕ), (1 : ℕ)) ∈ pairList m := by
    rw [pairList, List.mem_flatMap]
    refine ⟨0, List.mem_range.mpr (by omega), ?_⟩
    rw [List.mem_map]
    refine ⟨1, ?_, rfl⟩
    rw [List.mem_filter]
    exact ⟨List.mem_range.mpr (by omega), by decide⟩
  exact List.ne_nil_of_mem hmem

/-- A fold that at each step keeps either the accumulator or the next element
produces the initial value or a member of the list. -/
theorem foldl_ite_mem (cost : ℕ × ℕ → ℚ) :
    ∀ (l : List (ℕ × ℕ)) (a : ℕ × ℕ),
      l.foldl (fun acc q => if cost q < cost acc then q else acc) a = a ∨
        l.foldl (fun acc q => if cost q < cost acc then q else acc) a ∈ l
  | [], a => Or.inl rfl
  | x :: t, a => by
    rw [List.foldl_cons]
    rcases foldl_ite_mem cost t (if cost x < cost a then x else a) with h | h
    · rw [h]
      by_cases hc : cost x < cost a
      · rw [if_pos hc]
        exact Or.inr (List.mem_cons_self x t)
      · rw [if_neg hc]
        exact Or.inl rfl
    · exact Or.inr (List.mem_cons_of_mem x h)

/-- The selected merge pair is admissible whenever two zones are active. -/
theorem bestPair_admissible {β : ℚ} {zs : List ZoneNode} (h2 : 2 ≤ zs.length) :
    (bestPair β zs).1 < (bestPair β zs).2 ∧ (bestPair β zs).2 < zs.length := by
  have hne := @pairList_ne_nil zs.length h2
  cases hpl : pairList zs.length with
  | nil => exact absurd hpl hne
  | cons p ps =>
    have e : bestPair β zs = ps.foldl (fun acc q =>
        if mergeCost β (zs.getD q.1 dzone) (zs.getD q.2 dzone) <
            mergeCost β (zs.getD acc.1 dzone) (zs.getD acc.2 dzone) then q
        else acc) p := by
      unfold bestPair
      rw [hpl]
    rw [e]
    rcases foldl_ite_mem
        (fun q => mergeCost β (zs.getD q.1 dzone) (zs.getD q.2 dzone)) ps p with
      h | h
    · rw [h]
      exact pairList_mem (by rw [hpl]; exact List.mem_cons_self p ps)
    · exact pairList_mem (by rw [hpl]; exact List.mem_cons_of_mem p h)

/-- A merge round on at least two zones shortens the list by exactly one. -/
theorem length_mergeOnce {β : ℚ} {zs : List ZoneNode} (h2 : 2 ≤ zs.length) :
    (mergeOnce β zs).length = zs.length - 1 := by
  obtain ⟨hij, hj⟩ := @bestPair_admissible β zs h2
  have l1 : (zs.eraseIdx (bestPair β zs).2).length = zs.length - 1 := by
    rw [List.length_eraseIdx, if_pos hj]
  have l2 : ((zs.eraseIdx (bestPair β zs).2).eraseIdx (bestPair β zs).1).length
      = zs.length - 2 := by
    rw [List.length_eraseIdx, if_pos (by rw [l1]; omega), l1]
    omega
  rw [mergeOnce, if_neg (by omega)]
  simp only [removePair]
  rw [List.length_append, l2, List.length_singleton]
  omega

/-- A merge round preserves the flattened membership up to permutation. -/
theorem allMembers_mergeOnce (β : ℚ) (zs : List ZoneNode) :
    (allMembers (mergeOnce β zs)).Perm (allMembers zs) := by
  by_cases h : zs.length ≤ 1
  · rw [mergeOnce, if_pos h]
  · have h2 : 2 ≤ zs.length := by omega
    obtain ⟨hij, hj⟩ := @bestPair_admissible β zs h2
    rw [mergeOnce, if_neg h]
    have hperm := allMembers_perm (perm_two_extract zs _ _ hij hj)
    set gi := zs.getD (bestPair β zs).1 dzone with hgi
    set gj := zs.getD (bestPair β zs).2 dzone with hgj
    set rem := removePair zs (bestPair β zs).1 (bestPair β zs).2 with hrem
    have e : allMembers (rem ++ [mergeZones gi gj])
        = allMembers rem ++ (gi.members ++ gj.members) := by
      simp [allMembers, mergeZones]
    have e2 : allMembers (gi :: gj :: rem)
        = gi.members ++ (gj.members ++ allMembers rem) := by
      simp [allMembers]
    rw [e2] at hperm
    rw [e]
    have step3 : ((gi.members ++ gj.members) ++ allMembers rem).Perm (allMembers zs) := by
      rw [List.append_assoc]
      exact hperm.symm
    exact List.perm_append_comm.trans step3

/-- Merging preserves flattened membership through any number of rounds. -/
theorem allMembers_iterate (β : ℚ) (zs : List ZoneNode) :
    ∀ t : ℕ, (allMembers ((mergeOnce β)^[t] zs)).Perm (allMembers zs)
  | 0 => by
    rw [Function.iterate_zero_apply]
  | t + 1 => by
    rw [Function.iterate_succ_apply']
    exact (allMembers_mergeOnce β _).trans (allMembers_iterate β zs t)

/-- Length after t merge rounds, while enough zones remain. -/
theorem length_iterate_mergeOnce (β : ℚ) :
    ∀ (t : ℕ) (zs : List ZoneNode), t < zs.length →
      ((mergeOnce β)^[t] zs).length = zs.length - t
  | 0, zs, _ => by
    rw [Function.iterate_zero_apply]
    omega
  | t + 1, zs, h => by
    rw [Function.iterate_succ_apply]
    have h2 : 2 ≤ zs.length := by omega
    have hlen := @length_mergeOnce β zs h2
    have ht : t < (mergeOnce β zs).length := by omega
    rw [length_iterate_mergeOnce β t _ ht, hlen]
    omega

/-- The leaves cover exactly the input indices, in order. -/
theorem allMembers_map_leafZone (origins dests weights : List ℚ)
    (points : List (ℚ × ℚ)) :
    ∀ l : List ℕ, allMembers (l.map (leafZone origins dests weights points)) = l
  | [] => rfl
  | i :: t => by
    rw [List.map_cons, allMembers, List.flatMap_cons]
    have ih := allMembers_map_leafZone origins dests weights points t
    rw [allMembers] at ih
    rw [ih]
    rfl

/-- Core count: clamped resolution selection from any level list. -/
theorem select_resolution_core (β : ℚ) (L : List ZoneNode) (n m : ℕ)
    (hL : L.length = n) :
    ((mergeOnce β)^[n - min (max m 1) n] L).length = min (max m 1) n := by
  subst hL
  by_cases hn : L.length = 0
  · rw [hn]
    simp [hn]
  · have ht : L.length - min (max m 1) L.length < L.length := by omega
    rw [length_iterate_mergeOnce β _ L ht]
    omega

/-- The clamped size of a selected resolution. -/
theorem select_resolution_length (origins dests weights : List ℚ)
    (points : List (ℚ × ℚ)) (β : ℚ) (k m : ℕ) :
    ((AdaptiveZoneSystem.ofData origins dests weights points β k).select_resolution m).length
      = min (max m 1) points.length := by
  have e : (AdaptiveZoneSystem.ofData origins dests weights points β k).select_resolution m
      = (mergeOnce β)^[points.length - min (max m 1) points.length]
          ((List.range points.length).map (leafZone origins dests weights points)) := rfl
  rw [e]
  exact select_resolution_core β _ points.length m (by simp)

/-- Every selected resolution covers exactly the original input indices. -/
theorem select_resolution_members_perm (origins dests weights : List ℚ)
    (points : List (ℚ × ℚ)) (β : ℚ) (k m : ℕ) :
    (allMembers
      ((AdaptiveZoneSystem.ofData origins dests weights points β k).select_resolution m)).Perm
      (List.range points.length) := by
  have e : (AdaptiveZoneSystem.ofData origins dests weights points β k).select_resolution m
      = (mergeOnce β)^[points.length - min (max m 1) points.length]
          ((List.range points.length).map (leafZone origins dests weights points)) := rfl
  rw [e]
  refine (allMembers_iterate β _ _).trans ?_
  rw [allMembers_map_leafZone]

/-- C4: for every constructed zone system and every requested resolution m,
`select_resolution` returns exactly min (max m 1) n zones (requests outside
[1, n] are clamped, never rejected) whose flattened membership is a
permutation of the n original input indices: no point in two zones and no
point omitted. -/
theorem select_resolution_partition (origins dests weights : List ℚ)
    (points : List (ℚ × ℚ)) (β : ℚ) (k m : ℕ) :
    ((AdaptiveZoneSystem.ofData origins dests weights points β k).select_resolution m).length
      = min (max m 1) points.length ∧
    (allMembers
      ((AdaptiveZoneSystem.ofData origins dests weights points β k).select_resolution m)).Perm
      (List.range points.length) :=
  ⟨select_resolution_length origins dests weights points β k m,
    select_resolution_members_perm origins dests weights points β k m⟩

/-- Leaf zones have nonempty membership. -/
theorem leaf_members_ne_nil (origins dests weights : List ℚ)
    (points : List (ℚ × ℚ)) :
    ∀ w ∈ (List.range points.length).map (leafZone origins dests weights points),
      w.members ≠ [] := by
  intro w hw
  rw [List.mem_map] at hw
  obtain ⟨i, -, rfl⟩ := hw
  simp [leafZone]

/-- A merge round keeps every zone's membership nonempty. -/
theorem members_ne_nil_mergeOnce (β : ℚ) (zs : List ZoneNode)
    (hz : ∀ z ∈ zs, z.members ≠ []) :
    ∀ z ∈ mergeOnce β zs, z.members ≠ [] := by
  by_cases h : zs.length ≤ 1
  · rw [mergeOnce, if_pos h]
    exact hz
  · rw [mergeOnce, if_neg h]
    intro z hzm
    rcases List.mem_append.mp hzm with h1 | h1
    · refine hz z ?_
      have s1 : (removePair zs (bestPair β zs).1 (bestPair β zs).2).Sublist zs :=
        ((zs.eraseIdx (bestPair β zs).2).eraseIdx_sublist _).trans
          (zs.eraseIdx_sublist _)
      exact s1.subset h1
    · have h2 : 2 ≤ zs.length := by omega
      obtain ⟨hij, hj⟩ := @bestPair_admissible β zs h2
      have hz1 : zs.getD (bestPair β zs).1 dzone ∈ zs := by
        rw [List.getD_eq_getElem zs dzone (by omega)]
        exact List.getElem_mem _
      rw [List.mem_singleton] at h1
      subst h1
      intro hab
      rw [mergeZones] at hab
      exact hz _ hz1 (List.append_eq_nil.mp hab).1

/-- Merging keeps every zone's membership nonempty through any number of
rounds. -/
theorem members_ne_nil_iterate (β : ℚ) (zs : List ZoneNode)
    (hz : ∀ z ∈ zs, z.members ≠ []) :
    ∀ t : ℕ, ∀ z ∈ (mergeOnce β)^[t] zs, z.members ≠ []
  | 0 => by
    rw [Function.iterate_zero_apply]
    exact hz
  | t + 1 => by
    rw [Function.iterate_succ_apply']
    exact members_ne_nil_mergeOnce β _ (members_ne_nil_iterate β zs hz t)

/-- Every zone of a selected resolution has nonempty membership. -/
theorem select_resolution_members_ne_nil (origins dests weights : List ℚ)
    (points : List (ℚ × ℚ)) (β : ℚ) (k m : ℕ) :
    ∀ w ∈ (AdaptiveZoneSystem.ofData origins dests weights points β k).select_resolution m,
      w.members ≠ [] := by
  have e : (AdaptiveZoneSystem.ofData origins dests weights points β k).select_resolution m
      = (mergeOnce β)^[points.length - min (max m 1) points.length]
          ((List.range points.length).map (leafZone origins dests weights points)) := rfl
  rw [e]
  exact members_ne_nil_iterate β _ (leaf_members_ne_nil origins dests weights points) _

/-- In a level whose flattened membership has no duplicates and whose zones
are all nonempty, the zone at a valid position does not reappear among the
remaining zones. -/
theorem getD_not_mem_eraseIdx (level : List ZoneNode)
    (hnd : (allMembers level).Nodup)
    (hne : ∀ z ∈ level, z.members ≠ []) (z : ℕ) (hz : z < level.length) :
    level.getD z dzone ∉ level.eraseIdx z := by
  intro hmem
  have hperm := allMembers_perm (perm_getD_eraseIdx dzone level z hz)
  have hnd2 : (allMembers (level.getD z dzone :: level.eraseIdx z)).Nodup :=
    hperm.nodup hnd
  rw [allMembers, List.flatMap_cons, List.nodup_append] at hnd2
  obtain ⟨-, -, hdisj⟩ := hnd2
  have hzin : level.getD z dzone ∈ level := by
    rw [List.getD_eq_getElem _ _ hz]
    exact List.getElem_mem _
  obtain ⟨y, hy⟩ := List.exists_mem_of_ne_nil _ (hne _ hzin)
  exact hdisj hy (List.mem_flatMap.mpr ⟨_, hmem, hy⟩)

/-- Real centroid distance as the square root of the rational squared
distance. -/
theorem centroidDist_eq_sqrt (p q : ℚ × ℚ) :
    centroidDist p q = Real.sqrt ((sqDist p q : ℚ) : ℝ) := by
  unfold centroidDist euclideanDist sqDist
  congr 1
  push_cast
  ring

/-- The query ordering implies nondecreasing real centroid distance. -/
theorem nbhRel_centroidDist (c : ℚ × ℚ) (A B : ZoneNode) (h : nbhRel c A B) :
    centroidDist c A.centroid ≤ centroidDist c B.centroid := by
  have hq : sqDist c A.centroid ≤ sqDist c B.centroid := by
    rcases h with h | ⟨h, -⟩
    · exact le_of_lt h
    · exact le_of_eq h
  rw [centroidDist_eq_sqrt, centroidDist_eq_sqrt]
  exact Real.sqrt_le_sqrt (by exact_mod_cast hq)

/-- C5: at any hierarchy level of a constructed zone system, `neighbourhood`
excludes the queried zone itself, is sorted by nondecreasing centroid
distance with ties broken by least original member index (hence also by
nondecreasing real Euclidean centroid distance), and returns exactly
min j (level.length - 1) zones: fewer than requested only when fewer
candidate zones exist. -/
theorem neighbourhood_spec (origins dests weights : List ℚ)
    (points : List (ℚ × ℚ)) (β : ℚ) (k m z j : ℕ)
    (hz : z < ((AdaptiveZoneSystem.ofData origins dests weights points β k).select_resolution m).length) :
    ((AdaptiveZoneSystem.ofData origins dests weights points β k).select_resolution m).getD z dzone
      ∉ neighbourhood
        ((AdaptiveZoneSystem.ofData origins dests weights points β k).select_resolution m) z j ∧
    List.Sorted
      (nbhRel (((AdaptiveZoneSystem.ofData origins dests weights points β k).select_resolution m).getD z dzone).centroid)
      (neighbourhood
        ((AdaptiveZoneSystem.ofData origins dests weights points β k).select_resolution m) z j) ∧
    List.Sorted
      (fun A B =>
        centroidDist
          (((AdaptiveZoneSystem.ofData origins dests weights points β k).select_resolution m).getD z dzone).centroid
          A.centroid ≤
        centroidDist
          (((AdaptiveZoneSystem.ofData origins dests weights points β k).select_resolution m).getD z dzone).centroid
          B.centroid)
      (neighbourhood
        ((AdaptiveZoneSystem.ofData origins dests weights points β k).select_resolution m) z j) ∧
    (neighbourhood
      ((AdaptiveZoneSystem.ofData origins dests weights points β k).select_resolution m) z j).length
      = min j
        (((AdaptiveZoneSystem.ofData origins dests weights points β k).select_resolution m).length - 1) := by
  have hperm := select_resolution_members_perm origins dests weights points β k m
  have hne := select_resolution_members_ne_nil origins dests weights points β k m
  generalize hL : (AdaptiveZoneSystem.ofData origins dests weights points β k).select_resolution m = L at hperm hne hz ⊢
  have hnd : (allMembers L).Nodup := hperm.symm.nodup (List.nodup_range _)
  have hsorted : List.Sorted (nbhRel (L.getD z dzone).centroid)
      (List.insertionSort (nbhRel (L.getD z dzone).centroid) (L.eraseIdx z)) :=
    List.sorted_insertionSort _ _
  refine ⟨?_, ?_, ?_, ?_⟩
  · intro hmem
    have hsub : L.getD z dzone ∈ L.eraseIdx z := by
      have h1 : L.getD z dzone ∈
          List.insertionSort (nbhRel (L.getD z dzone).centroid) (L.eraseIdx z) :=
        (List.take_sublist _ _).subset hmem
      exact (List.perm_insertionSort _ _).mem_iff.mp h1
    exact getD_not_mem_eraseIdx L hnd hne z hz hsub
  · exact List.Pairwise.sublist (List.take_sublist _ _) hsorted
  · refine List.Pairwise.imp ?_
      (List.Pairwise.sublist (List.take_sublist _ _) hsorted)
    intro A B hab
    exact nbhRel_centroidDist _ A B hab
  · rw [neighbourhood, List.length_take,
      (List.perm_insertionSort (nbhRel (L.getD z dzone).centroid) (L.eraseIdx z)).length_eq,
      List.length_eraseIdx, if_pos hz]

/-- Witness for C5: a concrete three-point system at full resolution,
querying the neighbourhood of the first zone. -/
theorem neighbourhood_spec_witness :
    (0 < (exSys.select_resolution 3).length) ∧
    ((exSys.select_resolution 3).getD 0 dzone
      ∉ neighbourhood (exSys.select_resolution 3) 0 2 ∧
    List.Sorted
      (nbhRel ((exSys.select_resolution 3).getD 0 dzone).centroid)
      (neighbourhood (exSys.select_resolution 3) 0 2) ∧
    List.Sorted
      (fun A B =>
        centroidDist ((exSys.select_resolution 3).getD 0 dzone).centroid A.centroid ≤
        centroidDist ((exSys.select_resolution 3).getD 0 dzone).centroid B.centroid)
      (neighbourhood (exSys.select_resolution 3) 0 2) ∧
    (neighbourhood (exSys.select_resolution 3) 0 2).length
      = min 2 ((exSys.select_resolution 3).length - 1)) :=
  ⟨by decide,
    neighbourhood_spec exOnes exOnes exOnes exPoints 1 2 3 0 2 (by decide)⟩

/-- C10: queries never mutate the constructed hierarchy: running any sequence
of resolution-selection and neighbourhood queries threads the instance
state through unchanged, and each query's result is the pure function of
the original instance and its own arguments, independent of whatever other
queries run before or after it and of repetition. -/
theorem zone_queries_no_mutation (sys : AdaptiveZoneSystem)
    (qs : List ZoneQuery) :
    (runQueries sys qs).2 = sys ∧
    (runQueries sys qs).1 = qs.map (runQuery sys) := by
  induction qs with
  | nil => exact ⟨rfl, rfl⟩
  | cons q qs ih =>
    refine ⟨ih.1, ?_⟩
    rw [List.map_cons]
    exact congrArg (List.cons (runQuery sys q)) ih.2
